import Mathlib

/-!
Verification of the polysolve repository: a shallow embedding of the
rational-number type (`src/types/number.rs`) and the polynomial type with its
root search (`src/types/mod.rs`), together with theorems settling the frozen
claims about the specification.

Modelling conventions:
* Rust `u32` values are modelled by `Nat` and `i32` values by `Int`.  None of
  the claims under study concerns wrap-around behaviour, so machine-width
  reduction is not applied; every statement proved or refuted here is
  insensitive to it.
* Rust `u32` division and `%` are Euclidean on non-negative values, exactly
  `Nat` division and `Nat` mod.  The one divergence is `x / 0`, which panics
  in Rust and yields `0` in Lean; the definitions below only hit that case
  where noted in comments, and no theorem depends on it.
* The Rust sources mutate in place (`simplify(&mut self)`, `+=`); the
  embedding passes values explicitly.
-/

/-- `fn gcd(a: u32, b: u32) -> u32` from `src/types/number.rs`:
`if b == 0 { a } else { gcd(b, a % b) }`.  The function is total and is the
ordinary greatest common divisor, so the embedding uses `Nat.gcd`;
`gcd_rust_recursion` below proves that `Nat.gcd` satisfies the Rust
definition's recursion equation exactly, which determines the function. -/
def gcdRust (a b : Nat) : Nat := Nat.gcd a b

/-- `Nat.gcd` satisfies precisely the recursion of the Rust `gcd`. -/
theorem gcd_rust_recursion (a b : Nat) :
    gcdRust a b = if b = 0 then a else gcdRust b (a % b) := by
  unfold gcdRust
  split
  next h => simp [h]
  next h =>
    rw [Nat.gcd_comm b (a % b), ← Nat.gcd_rec]
    exact Nat.gcd_comm a b

/-- `pub struct Number { pub numerator: u32, pub denominator: u32, positive: bool }`
from `src/types/number.rs`. -/
structure Number where
  numerator : Nat
  denominator : Nat
  positive : Bool
deriving DecidableEq, Repr

namespace Number

/-- `Number::new(numerator, denominator, sign)`: builds the record and then
runs `simplify`, which divides both magnitudes by their gcd.  (When both
magnitudes are `0` the Rust code divides by zero and panics; Lean's total
division returns `⟨0, 0, sign⟩` there.  No theorem below evaluates that case.) -/
def new (numerator denominator : Nat) (sign : Bool) : Number :=
  let fac := gcdRust numerator denominator
  { numerator := numerator / fac, denominator := denominator / fac, positive := sign }

/-- `Number::simplify(&mut self)` as a value-producing function: divides the
stored magnitudes by their gcd, leaving the sign untouched. -/
def simplified (a : Number) : Number :=
  let fac := gcdRust a.numerator a.denominator
  { a with numerator := a.numerator / fac, denominator := a.denominator / fac }

/-- `Number::not_zero`: `self.numerator != 0`. -/
def not_zero (a : Number) : Bool := a.numerator != 0

/-- `Number::factors`: divisors `x` of the numerator in `1..=numerator/2`
emitted as `[x, -x]`, followed by `[numerator, -numerator]`.
`(1..=n/2)` is the list `[1, …, n/2]`, i.e. `(List.range (n / 2)).map (· + 1)`. -/
def factors (a : Number) : List Int :=
  ((((List.range (a.numerator / 2)).map (· + 1)).filter
      (fun x => a.numerator % x == 0)).flatMap
    (fun x => [(x : Int), -(x : Int)]))
  ++ [(a.numerator : Int), -(a.numerator : Int)]

/-- `Number::is_integer`: `self.denominator == 1`. -/
def is_integer (a : Number) : Bool := a.denominator == 1

/-- The body of the `for _ in 0..degree` loop of `Number::pow`: starting from
`1`, multiply by `base` once per iteration. -/
def mulLoop (base : Nat) (count : Nat) : Nat :=
  (List.range count).foldl (fun acc _ => acc * base) 1

/-- `Number::pow(&self, degree: i32)`: the loop `for _ in 0..degree` runs
`degree` times when `degree > 0` and zero times otherwise (Rust ranges with
`end <= start` are empty), i.e. `degree.toNat` times; the result is built by
`Number::new` with sign `true` when the degree is even and the receiver's
sign otherwise. -/
def pow (a : Number) (degree : Int) : Number :=
  let numerator := mulLoop a.numerator degree.toNat
  let denominator := mulLoop a.denominator degree.toNat
  Number.new numerator denominator (if degree % 2 = 0 then true else a.positive)

/-- `impl Add<Number> for Number`: signed cross-multiplication in `i32`
(`±1` factors from each operand's sign flag), then `Number::new` of the
absolute value over the product of denominators, with sign
`numerator.is_positive()` (strictly positive; `0` gives `false`).
`impl AddAssign for Number` has the identical body. -/
def add (a b : Number) : Number :=
  let lhs_factor : Int := if a.positive then 1 else -1
  let rhs_factor : Int := if b.positive then 1 else -1
  let numerator : Int :=
    ((a.numerator * b.denominator : Nat) : Int) * lhs_factor
      + ((b.numerator * a.denominator : Nat) : Int) * rhs_factor
  Number.new numerator.natAbs (a.denominator * b.denominator) (decide (0 < numerator))

/-- `impl Mul<u32> for Number`: scales the numerator. -/
def mulU32 (a : Number) (rhs : Nat) : Number :=
  Number.new (a.numerator * rhs) a.denominator a.positive

/-- `impl Mul<Number> for Number`: products of magnitudes; the sign is
`rhs.positive` when `self.positive` and `!rhs.positive` otherwise
(same signs give `true`). -/
def mul (a b : Number) : Number :=
  let sign := if a.positive then b.positive else !b.positive
  Number.new (a.numerator * b.numerator) (a.denominator * b.denominator) sign

/-- `impl Div<Number> for Number`: multiplies by the flipped `rhs`; the sign
is the boolean `self.positive ^ rhs.positive` (Rust `^` on `bool` is XOR). -/
def div (a b : Number) : Number :=
  Number.new (a.numerator * b.denominator) (a.denominator * b.numerator)
    (xor a.positive b.positive)

/-- `impl PartialEq for Number` (also used by the derived `Eq`):
`self.numerator * other.denominator == other.numerator * self.denominator`. -/
def beq (a b : Number) : Bool :=
  a.numerator * b.denominator == b.numerator * a.denominator

/-- `impl Ord for Number` (and `PartialOrd` via `Some`):
`(self.numerator * other.denominator).cmp(&(other.numerator * self.denominator))`. -/
def cmp (a b : Number) : Ordering :=
  compare (a.numerator * b.denominator) (b.numerator * a.denominator)

/-- `impl From<u32> for Number`: `Number::new(value, 1, true)`. -/
def fromU32 (value : Nat) : Number := Number.new value 1 true

end Number

/-- `struct Term { coefficient: Number, degree: i32 }` from `src/types/mod.rs`. -/
structure Term where
  coefficient : Number
  degree : Int
deriving DecidableEq, Repr

/-- `Term::evaluate(&self, x: Number)`: `x.pow(self.degree) * self.coefficient`. -/
def Term.evaluate (t : Term) (x : Number) : Number :=
  (x.pow t.degree).mul t.coefficient

/-- `struct PolynomialFunction { terms: Vec<Term> }` from `src/types/mod.rs`. -/
structure PolynomialFunction where
  terms : List Term
deriving DecidableEq, Repr

/-- One iteration of the grouping loop of `PolynomialFunction::simplify`: if a
term of the same degree is already present, add the new coefficient into it
(`original_term.coefficient += t.coefficient`, whose body is identical to
`Add`); otherwise simplify the incoming coefficient and insert the term.  The
Rust `HashMap<i32, Term>` keyed by degree is modelled as an association list
keyed by degree — the map is only ever consumed after the final sort, so its
iteration order is irrelevant. -/
def insertGrouped (acc : List Term) (t : Term) : List Term :=
  if acc.any (fun u => u.degree == t.degree) then
    acc.map (fun u =>
      if u.degree == t.degree then
        { u with coefficient := u.coefficient.add t.coefficient }
      else u)
  else
    acc ++ [{ t with coefficient := t.coefficient.simplified }]

/-- The grouping loop of `PolynomialFunction::simplify` over the whole raw
term list. -/
def collectTerms (ts : List Term) : List Term := ts.foldl insertGrouped []

/-- The sort order of `PolynomialFunction::simplify`:
`sort_by(|x, y| y.degree.cmp(&x.degree))`, i.e. degree descending. -/
def degDescend (t u : Term) : Prop := u.degree ≤ t.degree

instance : DecidableRel degDescend := fun t u => Int.decLe u.degree t.degree

instance : IsTotal Term degDescend := ⟨fun a b => le_total b.degree a.degree⟩

instance : IsTrans Term degDescend := ⟨fun _ _ _ h1 h2 => le_trans h2 h1⟩

/-- `PolynomialFunction::simplify`: group by degree (summing equal-degree
coefficients), drop terms whose coefficient has zero numerator, and sort by
degree descending.  Rust's stable `sort_by` is modelled by insertion sort:
after grouping the degrees are pairwise distinct, so every sort of this list
by `degDescend` yields the same list and stability is vacuous. -/
def simplifyTerms (ts : List Term) : List Term :=
  List.insertionSort degDescend
    ((collectTerms ts).filter (fun t => t.coefficient.not_zero))

/-- `PolynomialFunction::new`: stores the raw terms and immediately runs
`simplify` on them. -/
def PolynomialFunction.new (ts : List Term) : PolynomialFunction :=
  { terms := simplifyTerms ts }

namespace PolynomialFunction

/-- `PolynomialFunction::_evaluate(&self, x: Number)`: folds
`t.evaluate(x) + acc` over the terms starting from `0.into()`. -/
def evaluateN (p : PolynomialFunction) (x : Number) : Number :=
  p.terms.foldl (fun acc t => (t.evaluate x).add acc) (Number.fromU32 0)

/-- The `constant_term` binding of `PolynomialFunction::roots`: the last
stored term's coefficient when that term has degree `0`, else `1.into()`;
`1.into()` when there are no terms. -/
def constant_term (p : PolynomialFunction) : Number :=
  (p.terms.getLast?.map (fun x =>
    if x.degree = 0 then x.coefficient else Number.fromU32 1)).getD (Number.fromU32 1)

/-- The `leading_coefficient` binding of `PolynomialFunction::roots`: the
first stored term's coefficient when that term has degree `0`, else
`1.into()`; `1.into()` when there are no terms. -/
def leading_coefficient (p : PolynomialFunction) : Number :=
  (p.terms.head?.map (fun x =>
    if x.degree = 0 then x.coefficient else Number.fromU32 1)).getD (Number.fromU32 1)

/-- The `divisor` accumulation of `PolynomialFunction::roots`: starting from
`1`, multiply in the denominator of every non-integral coefficient. -/
def rootsDivisor (p : PolynomialFunction) : Nat :=
  p.terms.foldl (fun divisor t =>
    if !t.coefficient.is_integer then divisor * t.coefficient.denominator
    else divisor) 1

/-- The `potential_roots` iterator of `PolynomialFunction::roots`: for every
factor `c` of the scaled constant term and every factor `l` of the scaled
leading coefficient, the candidate `Number::new(c.abs(), l.abs(),
c.is_positive() == l.is_positive())`. -/
def potentialRoots (p : PolynomialFunction) : List Number :=
  let lc_factors := ((p.leading_coefficient.mulU32 p.rootsDivisor)).factors
  ((p.constant_term.mulU32 p.rootsDivisor)).factors.flatMap (fun c =>
    lc_factors.map (fun l =>
      Number.new c.natAbs l.natAbs (decide (0 < c) == decide (0 < l))))

/-- `PolynomialFunction::roots`: keep every candidate whose exact evaluation
has numerator `0`, collected into a `HashSet<Number>` and returned as a list.
The set (whose derived `Hash` covers all three fields) is modelled by
structural deduplication; every theorem below about `roots` is insensitive to
the deduplication policy (emptiness and membership are preserved by it). -/
def roots (p : PolynomialFunction) : List Number :=
  ((p.potentialRoots).filter (fun x => (p.evaluateN x).numerator == 0)).dedup

end PolynomialFunction

/-- C2: the claim that `compare`/equality account for sign fails on the code:
`PartialEq`/`Ord` compare raw magnitude cross-products only, so the code
reports `-1/1` equal to `1/1` (`Ordering::Equal`, `== true`) where the claim
requires `-1/1 < 1/1` and inequality. -/
theorem claim_C2_compare_ignores_sign :
    Number.cmp (Number.new 1 1 false) (Number.new 1 1 true) = Ordering.eq ∧
    Number.beq (Number.new 1 1 false) (Number.new 1 1 true) = true := by
  constructor <;> decide

/-- C3: the claim that dividing by a zero-numerator Rational fails fast is
violated: `Div` has no error path and on `(1/1) / (0/1)` silently returns the
`Number` with numerator `1` and denominator `0`. -/
theorem claim_C3_div_by_zero_returns_value :
    (Number.new 1 1 true).div (Number.new 0 1 true) = ⟨1, 0, false⟩ ∧
    ((Number.new 1 1 true).div (Number.new 0 1 true)).denominator = 0 := by
  constructor <;> decide

/-- C4: the claim that root search on an empty term list returns an empty set
fails: the defaults `1/1` for both constant and leading values produce the
candidates `±1/±1`, the empty polynomial evaluates to `0` (numerator `0`) at
every point, so every candidate is retained and the result is non-empty
(it contains the spurious root `1`). -/
theorem claim_C4_empty_polynomial_spurious_roots :
    (PolynomialFunction.new []).roots ≠ [] ∧
    Number.mk 1 1 true ∈ (PolynomialFunction.new []).roots := by
  constructor <;> decide

/-- C5: the multiplication half of the claim holds, but division violates it:
the code computes the quotient's sign as the boolean XOR of the two sign
flags, which is `false` exactly when the signs agree — the inverse of the
claimed rule.  `(1/1) / (1/1)` with both operands positive yields a negative
result, two negative operands also yield a negative result, and operands of
differing signs yield a positive result. -/
theorem claim_C5_divide_sign_inverted :
    ((Number.new 1 1 true).div (Number.new 1 1 true)).positive = false ∧
    ((Number.new 1 1 false).div (Number.new 2 1 false)).positive = false ∧
    ((Number.new 1 1 true).div (Number.new 2 1 false)).positive = true := by
  refine ⟨?_, ?_, ?_⟩ <;> decide

/-- C6: the claim that constructing a Rational with denominator `0` is
rejected fails: `Number::new(5, 0, true)` has no error path and returns the
value `⟨1, 0, true⟩` — in particular the stored denominator is `0 < 1`,
violating the claimed invariant. -/
theorem claim_C6_zero_denominator_accepted :
    Number.new 5 0 true = ⟨1, 0, true⟩ ∧
    ¬ 1 ≤ (Number.new 5 0 true).denominator := by
  constructor <;> decide

/-- C1: the constant-term extraction matches the claim on this input, but the
leading-coefficient extraction is inverted: for the canonical polynomial
`2x - 1` the term of highest degree present is `⟨2/1, degree 1⟩`, yet `roots`
uses `1/1` as the leading value (the code keeps the first term's coefficient
only when that term has degree `0`).  Consequently the candidate set is
`±1/±1` and the genuine rational root `1/2` — at which exact evaluation has
numerator `0` — is missed: `roots` returns the empty list. -/
theorem claim_C1_leading_value_inverted :
    (PolynomialFunction.new [⟨Number.new 2 1 true, 1⟩,
      ⟨Number.new 1 1 false, 0⟩]).terms.head? = some ⟨⟨2, 1, true⟩, 1⟩ ∧
    (PolynomialFunction.new [⟨Number.new 2 1 true, 1⟩,
      ⟨Number.new 1 1 false, 0⟩]).leading_coefficient = ⟨1, 1, true⟩ ∧
    (PolynomialFunction.new [⟨Number.new 2 1 true, 1⟩,
      ⟨Number.new 1 1 false, 0⟩]).constant_term = ⟨1, 1, false⟩ ∧
    ((PolynomialFunction.new [⟨Number.new 2 1 true, 1⟩,
      ⟨Number.new 1 1 false, 0⟩]).evaluateN ⟨1, 2, true⟩).numerator = 0 ∧
    (PolynomialFunction.new [⟨Number.new 2 1 true, 1⟩,
      ⟨Number.new 1 1 false, 0⟩]).roots = [] := by
  refine ⟨?_, ?_, ?_, ?_, ?_⟩ <;> decide

/-- Every `Number::new` with positive denominator argument yields a fully
reduced value: the stored magnitudes are the arguments divided by their gcd. -/
theorem Number.new_gcd_eq_one (n d : Nat) (s : Bool) (hd : 0 < d) :
    Nat.gcd (Number.new n d s).numerator (Number.new n d s).denominator = 1 := by
  have hg : 0 < Nat.gcd n d := Nat.gcd_pos_of_pos_right n hd
  have h := Nat.coprime_div_gcd_div_gcd hg
  simp only [Number.new, gcdRust]
  exact h

/-- C9: for Rationals with positive denominators, the results of `add` and
`mul` are fully reduced for every `b` (including zero), and so is the result
of `div` whenever `b`'s magnitude numerator is non-zero (the only case in
which the claim scopes division): each operation funnels through
`Number::new`, which divides both magnitudes by their gcd, and the
denominator argument it receives is positive in each case. -/
theorem claim_C9_results_fully_reduced (a b : Number)
    (ha : 0 < a.denominator) (hb : 0 < b.denominator) :
    Nat.gcd (a.add b).numerator (a.add b).denominator = 1 ∧
    Nat.gcd (a.mul b).numerator (a.mul b).denominator = 1 ∧
    (b.numerator ≠ 0 →
      Nat.gcd (a.div b).numerator (a.div b).denominator = 1) := by
  refine ⟨?_, ?_, fun hbz => ?_⟩
  · exact Number.new_gcd_eq_one _ _ _ (Nat.mul_pos ha hb)
  · exact Number.new_gcd_eq_one _ _ _ (Nat.mul_pos ha hb)
  · exact Number.new_gcd_eq_one _ _ _ (Nat.mul_pos ha (Nat.pos_of_ne_zero hbz))

/-- Witness for C9 at `6/4` (positive) and `0/9` (a zero `b`, so the add and
mul conjuncts apply at a zero second operand; the div conjunct's inner
non-zero guard is then vacuous). -/
theorem claim_C9_witness :
    0 < (Number.mk 6 4 true).denominator ∧
    0 < (Number.mk 0 9 false).denominator ∧
    (Nat.gcd ((Number.mk 6 4 true).add (Number.mk 0 9 false)).numerator
        ((Number.mk 6 4 true).add (Number.mk 0 9 false)).denominator = 1 ∧
      Nat.gcd ((Number.mk 6 4 true).mul (Number.mk 0 9 false)).numerator
        ((Number.mk 6 4 true).mul (Number.mk 0 9 false)).denominator = 1 ∧
      ((Number.mk 0 9 false).numerator ≠ 0 →
        Nat.gcd ((Number.mk 6 4 true).div (Number.mk 0 9 false)).numerator
          ((Number.mk 6 4 true).div (Number.mk 0 9 false)).denominator = 1)) :=
  ⟨by decide, by decide,
    claim_C9_results_fully_reduced _ _ (by decide) (by decide)⟩

/-- The `for` loop of `Number::pow` computes an ordinary power. -/
theorem Number.mulLoop_eq_pow (b n : Nat) : Number.mulLoop b n = b ^ n := by
  induction n with
  | zero => rfl
  | succ k ih =>
    unfold Number.mulLoop at ih ⊢
    rw [List.range_succ, List.foldl_append]
    simp [ih, pow_succ]

/-- C10: for a reduced Rational and a non-negative exponent `n`, `pow` yields
exactly the `n`-fold products of the magnitudes (reduction in `Number::new`
is the identity because powers of coprime numbers are coprime), the sign is
`true` for even `n` and the receiver's sign for odd `n`, and exponent `0`
yields `1/1` with positive sign regardless of the receiver. -/
theorem claim_C10_pow_magnitudes_and_sign (a : Number) (n : Nat)
    (h : Nat.gcd a.numerator a.denominator = 1) :
    (a.pow (n : Int)).numerator = a.numerator ^ n ∧
    (a.pow (n : Int)).denominator = a.denominator ^ n ∧
    (a.pow (n : Int)).positive = (if n % 2 = 0 then true else a.positive) ∧
    a.pow 0 = ⟨1, 1, true⟩ := by
  have hcop : Nat.Coprime (a.numerator ^ n) (a.denominator ^ n) :=
    Nat.Coprime.pow n n h
  have hg : Nat.gcd (a.numerator ^ n) (a.denominator ^ n) = 1 := hcop
  have hmod : ((n : Int) % 2 = 0) = (n % 2 = 0) := by
    apply propext
    omega
  refine ⟨?_, ?_, ?_, ?_⟩ <;>
    simp [Number.pow, Number.new, gcdRust, Number.mulLoop_eq_pow, hg, hmod]

/-- Witness for C10 at the reduced Rational `-2/3` and exponent `3`. -/
theorem claim_C10_witness :
    Nat.gcd (Number.mk 2 3 false).numerator (Number.mk 2 3 false).denominator = 1 ∧
    (((Number.mk 2 3 false).pow ((3 : Nat) : Int)).numerator =
        (Number.mk 2 3 false).numerator ^ 3 ∧
      ((Number.mk 2 3 false).pow ((3 : Nat) : Int)).denominator =
        (Number.mk 2 3 false).denominator ^ 3 ∧
      ((Number.mk 2 3 false).pow ((3 : Nat) : Int)).positive =
        (if 3 % 2 = 0 then true else (Number.mk 2 3 false).positive) ∧
      (Number.mk 2 3 false).pow 0 = ⟨1, 1, true⟩) :=
  ⟨by decide, claim_C10_pow_magnitudes_and_sign ⟨2, 3, false⟩ 3 (by decide)⟩

/-- The coefficients that the raw term list carries at a given degree, in
input order. -/
def coeffsOf (d : Int) (ts : List Term) : List Number :=
  (ts.filter (fun t => t.degree == d)).map Term.coefficient

/-- The coefficient that the grouping loop of `PolynomialFunction::simplify`
accumulates for degree `d`: the first raw coefficient of that degree is
simplified on insertion and every later one is combined with `Number::add`
(the body of `+=`).  Degrees absent from the list get the placeholder `0/1`,
which the theorems below never rely on. -/
def mergedCoeff (d : Int) (ts : List Term) : Number :=
  match coeffsOf d ts with
  | [] => Number.fromU32 0
  | c :: cs => cs.foldl Number.add c.simplified

theorem coeffsOf_append_single (d : Int) (ts : List Term) (t : Term) :
    coeffsOf d (ts ++ [t]) =
      coeffsOf d ts ++ (if t.degree = d then [t.coefficient] else []) := by
  simp only [coeffsOf, List.filter_append, List.map_append]
  congr 1
  by_cases h : t.degree = d <;> simp [h]

theorem mergedCoeff_append_single (d : Int) (ts : List Term) (t : Term) :
    mergedCoeff d (ts ++ [t]) =
      if t.degree = d then
        (match coeffsOf d ts with
          | [] => t.coefficient.simplified
          | c :: cs => (cs.foldl Number.add c.simplified).add t.coefficient)
      else mergedCoeff d ts := by
  rw [mergedCoeff, coeffsOf_append_single]
  by_cases h : t.degree = d
  · rw [if_pos h, if_pos h]
    cases hc : coeffsOf d ts with
    | nil => simp
    | cons c cs => simp [List.foldl_append]
  · rw [if_neg h, if_neg h, List.append_nil, mergedCoeff]

/-- A degree occurs in a term list exactly when its coefficient list is
non-empty. -/
theorem mem_degrees_iff_coeffsOf (d : Int) (ts : List Term) :
    d ∈ ts.map Term.degree ↔ ∃ c cs, coeffsOf d ts = c :: cs := by
  constructor
  · intro h
    obtain ⟨u, hu, hd⟩ := List.mem_map.1 h
    have hmem : u.coefficient ∈ coeffsOf d ts := by
      refine List.mem_map.2 ⟨u, ?_, rfl⟩
      exact List.mem_filter.2 ⟨hu, by simp [hd]⟩
    cases hc : coeffsOf d ts with
    | nil => rw [hc] at hmem; cases hmem
    | cons c cs => exact ⟨c, cs, rfl⟩
  · rintro ⟨c, cs, hc⟩
    have hmem : c ∈ coeffsOf d ts := by rw [hc]; exact List.mem_cons_self c cs
    obtain ⟨u, hu, _⟩ := List.mem_map.1 hmem
    have := List.mem_filter.1 hu
    exact List.mem_map.2 ⟨u, this.1, by simpa using this.2⟩

/-- Invariant of the grouping loop of `PolynomialFunction::simplify`: after
the terms `seen` have been processed, the accumulator holds exactly one entry
per degree occurring in `seen`, and that entry carries the merged coefficient
of its degree. -/
def GroupInv (acc seen : List Term) : Prop :=
  (acc.map Term.degree).Nodup ∧
  (∀ u ∈ acc, u.coefficient = mergedCoeff u.degree seen) ∧
  (∀ d : Int, d ∈ acc.map Term.degree ↔ d ∈ seen.map Term.degree)

theorem groupInv_step (acc seen : List Term) (t : Term) (h : GroupInv acc seen) :
    GroupInv (insertGrouped acc t) (seen ++ [t]) := by
  obtain ⟨hnd, hco, hmem⟩ := h
  by_cases hin : t.degree ∈ acc.map Term.degree
  · have hany : (acc.any fun u => u.degree == t.degree) = true := by
      obtain ⟨u, hu, hdu⟩ := List.mem_map.1 hin
      exact List.any_eq_true.2 ⟨u, hu, by simp [hdu]⟩
    have hseen : t.degree ∈ seen.map Term.degree := (hmem t.degree).1 hin
    obtain ⟨c, cs, hccs⟩ := (mem_degrees_iff_coeffsOf t.degree seen).1 hseen
    rw [insertGrouped, if_pos hany]
    have hdeg :
        (acc.map fun u =>
          if u.degree == t.degree then
            { u with coefficient := u.coefficient.add t.coefficient }
          else u).map Term.degree = acc.map Term.degree := by
      rw [List.map_map]
      refine List.map_congr_left fun u _ => ?_
      by_cases hu : u.degree = t.degree <;> simp [hu]
    refine ⟨by rw [hdeg]; exact hnd, ?_, ?_⟩
    · intro u' hu'
      obtain ⟨u, hu, rfl⟩ := List.mem_map.1 hu'
      by_cases hud : u.degree = t.degree
      · rw [if_pos (by simp [hud])]
        have hmc : mergedCoeff u.degree (seen ++ [t]) =
            (cs.foldl Number.add c.simplified).add t.coefficient := by
          rw [hud, mergedCoeff_append_single, if_pos rfl, hccs]
        have hold : u.coefficient = cs.foldl Number.add c.simplified := by
          have := hco u hu
          rw [hud] at this
          rw [this, mergedCoeff, hccs]
        show u.coefficient.add t.coefficient = mergedCoeff u.degree (seen ++ [t])
        rw [hold, hmc]
      · rw [if_neg (by simp [hud])]
        have : mergedCoeff u.degree (seen ++ [t]) = mergedCoeff u.degree seen := by
          rw [mergedCoeff_append_single, if_neg (fun he => hud he.symm)]
        rw [this]
        exact hco u hu
    · intro d
      rw [hdeg, List.map_append]
      simp only [List.mem_append, List.map_cons, List.map_nil, List.mem_singleton]
      constructor
      · intro hd
        exact Or.inl ((hmem d).1 hd)
      · rintro (hd | rfl)
        · exact (hmem d).2 hd
        · exact hin
  · have hany : (acc.any fun u => u.degree == t.degree) = false := by
      rw [List.any_eq_false]
      intro u hu
      simp only [beq_iff_eq]
      intro hdu
      exact hin (List.mem_map.2 ⟨u, hu, hdu⟩)
    have hnseen : t.degree ∉ seen.map Term.degree := fun hs => hin ((hmem t.degree).2 hs)
    have hempty : coeffsOf t.degree seen = [] := by
      cases hc : coeffsOf t.degree seen with
      | nil => rfl
      | cons c cs =>
        exact absurd ((mem_degrees_iff_coeffsOf t.degree seen).2 ⟨c, cs, hc⟩) hnseen
    rw [insertGrouped, if_neg (by rw [hany]; exact Bool.false_ne_true)]
    refine ⟨?_, ?_, ?_⟩
    · rw [List.map_append]
      simp only [List.map_cons, List.map_nil]
      rw [List.nodup_append]
      exact ⟨hnd, List.nodup_singleton _, by
        intro d hd hd'
        simp only [List.mem_singleton] at hd'
        subst hd'
        exact hin hd⟩
    · intro u' hu'
      rcases List.mem_append.1 hu' with hu | hu
      · have hud : u'.degree ≠ t.degree := fun he =>
          hin (he ▸ List.mem_map.2 ⟨u', hu, rfl⟩)
        have : mergedCoeff u'.degree (seen ++ [t]) = mergedCoeff u'.degree seen := by
          rw [mergedCoeff_append_single, if_neg (fun he => hud he.symm)]
        rw [this]
        exact hco u' hu
      · simp only [List.mem_singleton] at hu
        subst hu
        show t.coefficient.simplified = mergedCoeff t.degree (seen ++ [t])
        rw [mergedCoeff_append_single, if_pos rfl, hempty]
    · intro d
      rw [List.map_append, List.map_append]
      simp only [List.map_cons, List.map_nil, List.mem_append, List.mem_singleton]
      constructor
      · rintro (hd | hd)
        · exact Or.inl ((hmem d).1 hd)
        · exact Or.inr hd
      · rintro (hd | hd)
        · exact Or.inl ((hmem d).2 hd)
        · exact Or.inr hd

theorem groupInv_foldl (rest : List Term) :
    ∀ acc seen, GroupInv acc seen →
      GroupInv (rest.foldl insertGrouped acc) (seen ++ rest) := by
  induction rest with
  | nil => intro acc seen h; simpa using h
  | cons t rest ih =>
    intro acc seen h
    have := ih (insertGrouped acc t) (seen ++ [t]) (groupInv_step acc seen t h)
    simpa using this

theorem groupInv_collectTerms (ts : List Term) : GroupInv (collectTerms ts) ts := by
  have h0 : GroupInv [] [] :=
    ⟨List.nodup_nil, fun u hu => absurd hu (List.not_mem_nil u), fun _ => Iff.rfl⟩
  have := groupInv_foldl ts [] [] h0
  simpa [collectTerms] using this

/-- C8: `PolynomialFunction::new` canonicalizes automatically: the stored
term list is strictly sorted by degree descending (hence holds at most one
term per distinct degree), every stored coefficient has non-zero numerator,
each stored coefficient is the merge — first occurrence simplified, later
occurrences combined with `Number::add` — of the raw coefficients of its
degree, a degree survives exactly when it occurs in the input and its merged
coefficient is non-zero, and construction is literally `simplify` applied to
the raw list. -/
theorem claim_C8_canonical_form (ts : List Term) :
    List.Pairwise (fun a b => b.degree < a.degree) (PolynomialFunction.new ts).terms ∧
    (∀ t ∈ (PolynomialFunction.new ts).terms, t.coefficient.numerator ≠ 0) ∧
    (∀ t ∈ (PolynomialFunction.new ts).terms, t.coefficient = mergedCoeff t.degree ts) ∧
    (∀ d : Int, d ∈ (PolynomialFunction.new ts).terms.map Term.degree ↔
      d ∈ ts.map Term.degree ∧ (mergedCoeff d ts).numerator ≠ 0) ∧
    (PolynomialFunction.new ts).terms = simplifyTerms ts := by
  obtain ⟨hnd, hco, hmem⟩ := groupInv_collectTerms ts
  have hperm : ((PolynomialFunction.new ts).terms).Perm
      ((collectTerms ts).filter (fun t => t.coefficient.not_zero)) :=
    List.perm_insertionSort degDescend _
  have hsorted : List.Sorted degDescend (PolynomialFunction.new ts).terms :=
    List.sorted_insertionSort degDescend _
  have hfsub : List.Sublist
      (((collectTerms ts).filter (fun t => t.coefficient.not_zero)).map Term.degree)
      ((collectTerms ts).map Term.degree) :=
    (List.filter_sublist _).map Term.degree
  have hfnd : ((((collectTerms ts).filter
      (fun t => t.coefficient.not_zero))).map Term.degree).Nodup :=
    hnd.sublist hfsub
  have hond : (((PolynomialFunction.new ts).terms).map Term.degree).Nodup :=
    (hperm.map Term.degree).nodup_iff.2 hfnd
  have hne : List.Pairwise (fun a b : Term => a.degree ≠ b.degree)
      (PolynomialFunction.new ts).terms :=
    List.pairwise_map.1 hond
  have hmemout : ∀ t ∈ (PolynomialFunction.new ts).terms,
      t ∈ collectTerms ts ∧ t.coefficient.not_zero = true := by
    intro t ht
    exact List.mem_filter.1 (hperm.mem_iff.1 ht)
  refine ⟨?_, ?_, ?_, ?_, rfl⟩
  · exact (List.Pairwise.and hsorted hne).imp
      (fun h => lt_of_le_of_ne h.1 (Ne.symm h.2))
  · intro t ht
    have := (hmemout t ht).2
    simpa [Number.not_zero] using this
  · intro t ht
    exact hco t (hmemout t ht).1
  · intro d
    constructor
    · intro hd
      obtain ⟨u, hu, rfl⟩ := List.mem_map.1 hd
      obtain ⟨huc, hz⟩ := hmemout u hu
      refine ⟨(hmem u.degree).1 (List.mem_map.2 ⟨u, huc, rfl⟩), ?_⟩
      rw [← hco u huc]
      simpa [Number.not_zero] using hz
    · rintro ⟨hd, hz⟩
      obtain ⟨u, hu, rfl⟩ := List.mem_map.1 ((hmem d).2 hd)
      have hz' : u.coefficient.not_zero = true := by
        rw [hco u hu]
        simpa [Number.not_zero] using hz
      refine List.mem_map.2 ⟨u, ?_, rfl⟩
      exact hperm.mem_iff.2 (List.mem_filter.2 ⟨hu, hz'⟩)
